import Mathlib

/-!
Shallow embedding of the `advanzia2csv` transaction extractor (`src/lib.rs`).

Modelling conventions:
* Rust `&str` values are modelled as `List Char`; byte offsets returned by
  `str::find` / regex matches become character offsets (all patterns involved
  are ASCII, so every match boundary is a character boundary).
* The regex class `\d` is modelled as ASCII decimal digits and Rust's
  whitespace trimming as the four ASCII whitespace characters recognised by
  `Char.isWhitespace`; none of the statements below depend on non-ASCII
  behaviour.
* Rust `f64` amounts are modelled exactly as rationals (`ℚ`); the parsed
  strings are plain `digits.digits` literals, for which `f64` parsing never
  fails, so `parse::<f64>().unwrap_or_default()` is modelled as the exact
  rational value.
* A Rust panic (the slice `&text[start..end]` with `start > end`) is modelled
  as `Option.none` propagating through the page/document pipeline.
-/

namespace Advanzia

/-- Rust slice `text[a..b]` (only meaningful for `a ≤ b`). -/
def listSlice (text : List Char) (a b : Nat) : List Char :=
  (text.drop a).take (b - a)

/-- Remove the maximal run of trailing whitespace characters. -/
def trimRight : List Char → List Char
  | [] => []
  | c :: rest => if trimRight rest = [] ∧ c.isWhitespace then [] else c :: trimRight rest

/-- Model of Rust `str::trim`: drop leading and trailing whitespace. -/
def trim (cs : List Char) : List Char :=
  trimRight (cs.dropWhile Char.isWhitespace)

/-- Model of `part.split_once("\n").unwrap_or_default()`: split at the first
newline, or yield `("", "")` when there is none. -/
def splitOnceNl (cs : List Char) : List Char × List Char :=
  if cs.contains '\n' then
    (cs.takeWhile (fun c => c != '\n'), (cs.dropWhile (fun c => c != '\n')).tail)
  else ([], [])

/-- Model of `str::replace("\n", ", ")`. -/
def replaceNl : List Char → List Char
  | [] => []
  | c :: rest => if c = '\n' then ',' :: ' ' :: replaceNl rest else c :: replaceNl rest

/-- Does the regex `\d{2}\.\d{2}\.\d{4}` (`RE_DATE`) match at the head of the
list? -/
def dateAt : List Char → Bool
  | d1 :: d2 :: p1 :: d3 :: d4 :: p2 :: d5 :: d6 :: d7 :: d8 :: _ =>
    d1.isDigit && d2.isDigit && p1 == '.' && d3.isDigit && d4.isDigit && p2 == '.' &&
    d5.isDigit && d6.isDigit && d7.isDigit && d8.isDigit
  | _ => false

/-- Step-bounded scanner for `RE_DATE` matches: `fuel` bounds the number of
scan steps (each step consumes at least one character, so the text length is
always enough fuel). Structural recursion on the fuel keeps the function
kernel-computable. -/
def dateScanAux : Nat → List Char → Nat → List Nat
  | 0, _, _ => []
  | _ + 1, [], _ => []
  | fuel + 1, c :: rest, pos =>
    if dateAt (c :: rest) then pos :: dateScanAux fuel ((c :: rest).drop 10) (pos + 10)
    else dateScanAux fuel rest (pos + 1)

/-- Start positions of the successive non-overlapping leftmost matches of
`RE_DATE`, as produced by `find_iter` (every match has length 10). -/
def dateScan (cs : List Char) (pos : Nat) : List Nat :=
  dateScanAux cs.length cs pos

theorem dateScanAux_fuel :
    ∀ (fuel : Nat) (cs : List Char) (pos : Nat), cs.length ≤ fuel →
      dateScanAux fuel cs pos = dateScan cs pos := by
  intro fuel
  induction fuel using Nat.strong_induction_on with
  | _ fuel ih =>
    intro cs pos hle
    match fuel, cs with
    | 0, [] => rfl
    | 0, c :: rest => simp at hle
    | f + 1, [] => rfl
    | f + 1, c :: rest =>
      have hr : rest.length ≤ f := by simp at hle; omega
      have hdlen : ((c :: rest).drop 10).length ≤ rest.length := by
        simp [List.length_drop]
      show (if dateAt (c :: rest) then pos :: dateScanAux f ((c :: rest).drop 10) (pos + 10)
            else dateScanAux f rest (pos + 1)) = dateScan (c :: rest) pos
      have hgoal : dateScan (c :: rest) pos =
          (if dateAt (c :: rest) then
            pos :: dateScanAux rest.length ((c :: rest).drop 10) (pos + 10)
          else dateScanAux rest.length rest (pos + 1)) := rfl
      rw [hgoal]
      by_cases hda : dateAt (c :: rest) = true
      · rw [if_pos hda, if_pos hda,
          ih f (by omega) _ _ (le_trans hdlen hr),
          ih rest.length (by omega) _ _ hdlen]
      · rw [if_neg hda, if_neg hda, ih f (by omega) _ _ hr,
          ih rest.length (by omega) _ _ (le_refl _)]

theorem dateScan_nil (pos : Nat) : dateScan [] pos = [] := rfl

theorem dateScan_cons (c : Char) (rest : List Char) (pos : Nat) :
    dateScan (c :: rest) pos =
      if dateAt (c :: rest) then pos :: dateScan ((c :: rest).drop 10) (pos + 10)
      else dateScan rest (pos + 1) := by
  show (if dateAt (c :: rest) then pos :: dateScanAux rest.length ((c :: rest).drop 10) (pos + 10)
        else dateScanAux rest.length rest (pos + 1)) = _
  rw [dateScanAux_fuel rest.length _ _ (by simp [List.length_drop]),
    dateScanAux_fuel rest.length _ _ (le_refl _)]

/-- Induction principle following the recursion pattern of `dateScan`. -/
theorem dateScan_rec (motive : List Char → Nat → Prop)
    (hnil : ∀ pos, motive [] pos)
    (hmatch : ∀ c rest pos, dateAt (c :: rest) = true →
      motive ((c :: rest).drop 10) (pos + 10) → motive (c :: rest) pos)
    (hskip : ∀ c rest pos, dateAt (c :: rest) = false →
      motive rest (pos + 1) → motive (c :: rest) pos) :
    ∀ cs pos, motive cs pos := by
  have H : ∀ (n : Nat) (cs : List Char), cs.length ≤ n → ∀ pos, motive cs pos := by
    intro n
    induction n with
    | zero =>
      intro cs hle pos
      rw [List.eq_nil_of_length_eq_zero (Nat.le_zero.mp hle)]
      exact hnil pos
    | succ n ih =>
      intro cs hle pos
      match cs with
      | [] => exact hnil pos
      | c :: rest =>
        by_cases hda : dateAt (c :: rest) = true
        · refine hmatch c rest pos hda (ih _ ?_ _)
          simp only [List.length_drop, List.length_cons]
          simp at hle
          omega
        · refine hskip c rest pos (by simpa using hda) (ih _ ?_ _)
          simp at hle
          omega
  exact fun cs pos => H cs.length cs (le_refl _) pos

/-- Model of `RE_DATE.find(cs).is_some()`: some match starts somewhere. -/
def hasDate : List Char → Bool
  | [] => false
  | c :: rest => dateAt (c :: rest) || hasDate rest

/-- Length of the maximal leading run of digits. -/
def digitRun : List Char → Nat
  | [] => 0
  | c :: rest => if c.isDigit then digitRun rest + 1 else 0

/-- Length of the match of `\d+,\d+` (`RE_NUMBER`) at the head of the list,
if any: a maximal digit run, a comma, and a maximal digit run (both greedy,
exactly as the regex engine matches). -/
def numLen (cs : List Char) : Option Nat :=
  if digitRun cs = 0 then none
  else
    match cs.drop (digitRun cs) with
    | c :: rest2 =>
      if c = ',' then
        (if digitRun rest2 = 0 then none else some (digitRun cs + 1 + digitRun rest2))
      else none
    | [] => none

theorem numLen_pos {cs : List Char} {L : Nat} (h : numLen cs = some L) : 1 ≤ L := by
  unfold numLen at h
  split at h
  · exact absurd h (by simp)
  · split at h
    · split at h
      · split at h
        · exact absurd h (by simp)
        · injection h with h
          omega
      · exact absurd h (by simp)
    · exact absurd h (by simp)

/-- Step-bounded scanner for `RE_NUMBER` matches (fuel as in `dateScanAux`). -/
def numScanAux : Nat → List Char → Nat → List (Nat × Nat)
  | 0, _, _ => []
  | _ + 1, [], _ => []
  | fuel + 1, c :: rest, pos =>
    match numLen (c :: rest) with
    | some len => (pos, len) :: numScanAux fuel ((c :: rest).drop len) (pos + len)
    | none => numScanAux fuel rest (pos + 1)

/-- The `(start, length)` pairs of the successive non-overlapping leftmost
matches of `RE_NUMBER`, as produced by `find_iter`. -/
def numScan (cs : List Char) (pos : Nat) : List (Nat × Nat) :=
  numScanAux cs.length cs pos

theorem numScanAux_fuel :
    ∀ (fuel : Nat) (cs : List Char) (pos : Nat), cs.length ≤ fuel →
      numScanAux fuel cs pos = numScan cs pos := by
  intro fuel
  induction fuel using Nat.strong_induction_on with
  | _ fuel ih =>
    intro cs pos hle
    match fuel, cs with
    | 0, [] => rfl
    | 0, c :: rest => simp at hle
    | f + 1, [] => rfl
    | f + 1, c :: rest =>
      have hr : rest.length ≤ f := by simp at hle; omega
      cases hnl : numLen (c :: rest) with
      | some len =>
        have hdlen : ((c :: rest).drop len).length ≤ rest.length := by
          have := numLen_pos hnl
          simp [List.length_drop]
          omega
        have e1 : numScanAux (f + 1) (c :: rest) pos =
            (pos, len) :: numScanAux f ((c :: rest).drop len) (pos + len) := by
          show (match numLen (c :: rest) with
                | some len => (pos, len) :: numScanAux f ((c :: rest).drop len) (pos + len)
                | none => numScanAux f rest (pos + 1)) = _
          rw [hnl]
        have e2 : numScan (c :: rest) pos =
            (pos, len) :: numScanAux rest.length ((c :: rest).drop len) (pos + len) := by
          show (match numLen (c :: rest) with
                | some len =>
                  (pos, len) :: numScanAux rest.length ((c :: rest).drop len) (pos + len)
                | none => numScanAux rest.length rest (pos + 1)) = _
          rw [hnl]
        rw [e1, e2, ih f (by omega) _ _ (le_trans hdlen hr),
          ih rest.length (by omega) _ _ hdlen]
      | none =>
        have e1 : numScanAux (f + 1) (c :: rest) pos = numScanAux f rest (pos + 1) := by
          show (match numLen (c :: rest) with
                | some len => (pos, len) :: numScanAux f ((c :: rest).drop len) (pos + len)
                | none => numScanAux f rest (pos + 1)) = _
          rw [hnl]
        have e2 : numScan (c :: rest) pos = numScanAux rest.length rest (pos + 1) := by
          show (match numLen (c :: rest) with
                | some len =>
                  (pos, len) :: numScanAux rest.length ((c :: rest).drop len) (pos + len)
                | none => numScanAux rest.length rest (pos + 1)) = _
          rw [hnl]
        rw [e1, e2, ih f (by omega) _ _ hr, ih rest.length (by omega) _ _ (le_refl _)]

theorem numScan_nil (pos : Nat) : numScan [] pos = [] := rfl

theorem numScan_cons (c : Char) (rest : List Char) (pos : Nat) :
    numScan (c :: rest) pos =
      match numLen (c :: rest) with
      | some len => (pos, len) :: numScan ((c :: rest).drop len) (pos + len)
      | none => numScan rest (pos + 1) := by
  cases hnl : numLen (c :: rest) with
  | some len =>
    have hdlen : ((c :: rest).drop len).length ≤ rest.length := by
      have := numLen_pos hnl
      simp [List.length_drop]
      omega
    have e1 : numScan (c :: rest) pos =
        (pos, len) :: numScanAux rest.length ((c :: rest).drop len) (pos + len) := by
      show (match numLen (c :: rest) with
            | some len => (pos, len) :: numScanAux rest.length ((c :: rest).drop len) (pos + len)
            | none => numScanAux rest.length rest (pos + 1)) = _
      rw [hnl]
    rw [e1, numScanAux_fuel rest.length _ _ hdlen]
  | none =>
    have e1 : numScan (c :: rest) pos = numScanAux rest.length rest (pos + 1) := by
      show (match numLen (c :: rest) with
            | some len => (pos, len) :: numScanAux rest.length ((c :: rest).drop len) (pos + len)
            | none => numScanAux rest.length rest (pos + 1)) = _
      rw [hnl]
    rw [e1, numScanAux_fuel rest.length _ _ (le_refl _)]

/-- Induction principle following the recursion pattern of `numScan`. -/
theorem numScan_rec (motive : List Char → Nat → Prop)
    (hnil : ∀ pos, motive [] pos)
    (hmatch : ∀ c rest pos len, numLen (c :: rest) = some len →
      motive ((c :: rest).drop len) (pos + len) → motive (c :: rest) pos)
    (hskip : ∀ c rest pos, numLen (c :: rest) = none →
      motive rest (pos + 1) → motive (c :: rest) pos) :
    ∀ cs pos, motive cs pos := by
  have H : ∀ (n : Nat) (cs : List Char), cs.length ≤ n → ∀ pos, motive cs pos := by
    intro n
    induction n with
    | zero =>
      intro cs hle pos
      rw [List.eq_nil_of_length_eq_zero (Nat.le_zero.mp hle)]
      exact hnil pos
    | succ n ih =>
      intro cs hle pos
      match cs with
      | [] => exact hnil pos
      | c :: rest =>
        cases hnl : numLen (c :: rest) with
        | some len =>
          refine hmatch c rest pos len hnl (ih _ ?_ _)
          have := numLen_pos hnl
          simp only [List.length_drop, List.length_cons]
          simp at hle
          omega
        | none =>
          refine hskip c rest pos hnl (ih _ ?_ _)
          simp at hle
          omega
  exact fun cs pos => H cs.length cs (le_refl _) pos

/-- Value of a digit string (the digits of a matched number). -/
def digitsToNat (cs : List Char) : Nat :=
  cs.foldl (fun acc c => acc * 10 + (c.toNat - 48)) 0

/-- Exact value of `m.as_str().replace(",", ".").parse::<f64>()` for a full
`RE_NUMBER` match `cs` (digits, one comma, digits), as a rational: the value
of all digits read as one integer, divided by ten to the number of digits
after the comma. (`Rat.divInt` is used rather than `/` so that the value is
kernel-computable.) -/
def matchValue (cs : List Char) : ℚ :=
  Rat.divInt (digitsToNat (cs.take (digitRun cs) ++ cs.drop (digitRun cs + 1)))
    ((10 : Int) ^ (cs.drop (digitRun cs + 1)).length)

/-- Body of the loop of `split_by_regex` (`src/lib.rs:26-45`): walk the match
start positions, pushing the non-empty chunk between the previous match start
(`lastEnd`) and the current one, then the tail chunk from the last match
start to the end of the text. -/
def splitGo (text : List Char) : List Nat → Nat → List (List Char)
  | [], lastEnd => if lastEnd < text.length then [text.drop lastEnd] else []
  | s :: rest, lastEnd =>
    (if lastEnd ≤ s then
      (if listSlice text lastEnd s = [] then [] else [listSlice text lastEnd s])
    else []) ++ splitGo text rest s

/-- Model of `split_by_regex(text, &RE_DATE)`. -/
def split_by_date (text : List Char) : List (List Char) :=
  splitGo text (dateScan text 0) 0

/-- Model of lines 61-69 of `src/lib.rs`: take the start of the last
`RE_NUMBER` match of `part`, split there, trim both halves; `("", "")` when
there is no match (`unwrap_or_default`). -/
def descAndAmountStr (part : List Char) : List Char × List Char :=
  match (numScan part 0).getLast? with
  | some (pos, _) => (trim (part.take pos), trim (part.drop pos))
  | none => ([], [])

/-- Model of lines 71-78 of `src/lib.rs`: value of the first `RE_NUMBER`
match of the amount candidate, `0` when there is none. -/
def amountOf (amountStr : List Char) : ℚ :=
  match (numScan amountStr 0).head? with
  | some (pos, len) => matchValue (listSlice amountStr pos (pos + len))
  | none => 0

/-- The sole domain entity (`struct Transaction`, `src/lib.rs:19-24`). -/
structure Transaction where
  date : List Char
  description : List Char
  amount : ℚ
  deriving DecidableEq, Repr

/-- One iteration of the loop of `get_transactions` (`src/lib.rs:50-92`):
`none` models `continue`. -/
def parsePart (frag : List Char) : Option Transaction :=
  let part1 := trim frag
  if part1 = [] then none
  else
    let date := (splitOnceNl part1).1
    let part := (splitOnceNl part1).2
    if hasDate date = false then none
    else
      let description := (descAndAmountStr part).1
      let amount := amountOf (descAndAmountStr part).2
      if date = [] ∨ description = [] ∨ amount = 0 then none
      else some ⟨trim date, trim (replaceNl description), amount⟩

/-- Model of `get_transactions` (`src/lib.rs:47-95`). -/
def get_transactions (text : List Char) : List Transaction :=
  (split_by_date text).filterMap parsePart

/-- The `rest` a fragment is split into after its date line (the shadowed
`part` of `src/lib.rs:56`). -/
def restOf (frag : List Char) : List Char :=
  (splitOnceNl (trim frag)).2

/-- Decide whether `pat` is a prefix of `cs`. -/
def prefixAt : List Char → List Char → Bool
  | [], _ => true
  | _ :: _, [] => false
  | p :: ps, c :: cs => p == c && prefixAt ps cs

/-- Model of Rust `str::find(pat)`: index of the first occurrence of `pat`. -/
def findSub (pat : List Char) : List Char → Option Nat
  | [] => if prefixAt pat [] then some 0 else none
  | c :: rest =>
    if prefixAt pat (c :: rest) then some 0
    else (findSub pat rest).map (· + 1)

def STARTING_TEXT : List Char := "ALTER SALDO".data

def ENDING_TEXT : List Char := "NEUER SALDO".data

/-- `text.find(STARTING_TEXT).unwrap_or(0)` (`src/lib.rs:102`). -/
def windowStart (text : List Char) : Nat :=
  (findSub STARTING_TEXT text).getD 0

/-- `text.find(ENDING_TEXT).unwrap_or(text.len())` (`src/lib.rs:103`). -/
def windowEnd (text : List Char) : Nat :=
  (findSub ENDING_TEXT text).getD text.length

/-- The slice `&text[start..end]` of `src/lib.rs:104`; `none` models the
panic of a Rust range slice whose start exceeds its end. -/
def pageWindow (text : List Char) : Option (List Char) :=
  if windowStart text ≤ windowEnd text then
    some (listSlice text (windowStart text) (windowEnd text))
  else none

/-- Transactions extracted from one successfully extracted page. -/
def pageTransactions (text : List Char) : Option (List Transaction) :=
  (pageWindow text).map get_transactions

/-- A page is `none` when `extract_text` failed for it, otherwise the page's
extracted text. -/
abbrev Page := Option (List Char)

/-- A document is its list of pages in page order. -/
abbrev Doc := List Page

/-- Model of `get_transactions_from_pdf` (`src/lib.rs:97-113`): failed pages
are skipped (the `Err` arm only logs), successful pages contribute their
transactions in page order; an overall `none` models a panic propagating out
of `pageWindow`. -/
def docTransactions : Doc → Option (List Transaction)
  | [] => some []
  | none :: rest => docTransactions rest
  | some text :: rest =>
    match pageTransactions text, docTransactions rest with
    | some ts, some acc => some (ts ++ acc)
    | _, _ => none

/-- Model of the `flat_map` over discovered paths (`src/lib.rs:124-136`):
a document is `none` when `Document::load` failed (the `Err` arm logs and
contributes `Vec::new()`). -/
def batchTransactions : List (Option Doc) → Option (List Transaction)
  | [] => some []
  | none :: rest => batchTransactions rest
  | some doc :: rest =>
    match docTransactions doc, batchTransactions rest with
    | some ts, some acc => some (ts ++ acc)
    | _, _ => none

/-- The message of `anyhow!("No transactions found in {}", ...)`. -/
def noTransMsg (input : List Char) : List Char :=
  "No transactions found in ".data ++ input

/-- Model of `advanzia2csv` (`src/lib.rs:115-160`): `input` is the display of
the input path, `docs` the load results of the discovered documents in
discovery order, `writeOk` whether file creation/serialization/flush succeed.
`none` models a panic. -/
def advanzia2csv (input : List Char) (docs : List (Option Doc)) (writeOk : Bool) :
    Option (Except (List Char) (List Transaction)) :=
  match batchTransactions docs with
  | none => none
  | some ts =>
    if ts = [] then some (Except.error (noTransMsg input))
    else if writeOk then some (Except.ok ts) else some (Except.error "output write failure".data)

/-- Modelled from the spec: the `swap_sign` handling is absent from
`src/lib.rs` (its `advanzia2csv` takes no such parameter) although `main.rs`
passes one; spec §4.5: "If a `swap_sign` option is set, negate every
transaction's amount in place before serialization." -/
def applySwapSign (swap : Bool) (ts : List Transaction) : List Transaction :=
  if swap then ts.map (fun t => { t with amount := -t.amount }) else ts

/-- The aggregated transaction list the conversion serializes, for a given
`swap_sign` setting: the faithful batch aggregation followed by the
spec-modelled sign swap. -/
def convertTransactions (docs : List (Option Doc)) (swap : Bool) :
    Option (List Transaction) :=
  (batchTransactions docs).map (applySwapSign swap)

/-! ### Basic facts about the date pattern -/

theorem dateAt_cons (a b c d e f g h i j : Char) (t : List Char) :
    dateAt (a :: b :: c :: d :: e :: f :: g :: h :: i :: j :: t) =
      (a.isDigit && b.isDigit && c == '.' && d.isDigit && e.isDigit && f == '.' &&
       g.isDigit && h.isDigit && i.isDigit && j.isDigit) := rfl

theorem dateAt_shape {cs : List Char} (hd : dateAt cs = true) :
    ∃ a b c d e f g h i j t, cs = a :: b :: c :: d :: e :: f :: g :: h :: i :: j :: t ∧
      a.isDigit = true ∧ b.isDigit = true ∧ c = '.' ∧ d.isDigit = true ∧ e.isDigit = true ∧
      f = '.' ∧ g.isDigit = true ∧ h.isDigit = true ∧ i.isDigit = true ∧ j.isDigit = true := by
  unfold dateAt at hd
  split at hd
  · next a b c d e f g h i j t =>
    simp only [Bool.and_eq_true, beq_iff_eq] at hd
    exact ⟨a, b, c, d, e, f, g, h, i, j, t, rfl, hd.1.1.1.1.1.1.1.1.1, hd.1.1.1.1.1.1.1.1.2,
      hd.1.1.1.1.1.1.1.2, hd.1.1.1.1.1.1.2, hd.1.1.1.1.1.2, hd.1.1.1.1.2, hd.1.1.1.2,
      hd.1.1.2, hd.1.2, hd.2⟩
  · exact absurd hd (by simp)

theorem dateAt_length {cs : List Char} (hd : dateAt cs = true) : 10 ≤ cs.length := by
  obtain ⟨a, b, c, d, e, f, g, h, i, j, t, rfl, -⟩ := dateAt_shape hd
  simp

theorem dateAt_append {xs : List Char} (ys : List Char) (hd : dateAt xs = true) :
    dateAt (xs ++ ys) = true := by
  obtain ⟨a, b, c, d, e, f, g, h, i, j, t, rfl, h1, h2, h3, h4, h5, h6, h7, h8, h9, h10⟩ :=
    dateAt_shape hd
  subst h3; subst h6
  simp [dateAt_cons, h1, h2, h4, h5, h7, h8, h9, h10]

theorem dateAt_of_take {cs : List Char} {k : Nat} (hd : dateAt (cs.take k) = true) :
    dateAt cs = true := by
  have := dateAt_append (cs.drop k) hd
  rwa [List.take_append_drop] at this

theorem dateAt_take_of_ge {cs : List Char} {k : Nat} (hk : 10 ≤ k) (hd : dateAt cs = true) :
    dateAt (cs.take k) = true := by
  obtain ⟨a, b, c, d, e, f, g, h, i, j, t, rfl, h1, h2, h3, h4, h5, h6, h7, h8, h9, h10⟩ :=
    dateAt_shape hd
  subst h3; subst h6
  obtain ⟨m, rfl⟩ : ∃ m, k = m + 10 := ⟨k - 10, by omega⟩
  have hrw : ∀ (x : Nat), x + 10 = (((((((((x + 1) + 1) + 1) + 1) + 1) + 1) + 1) + 1) + 1) + 1 :=
    fun x => by omega
  rw [hrw]
  simp only [List.take_succ_cons]
  simp [dateAt_cons, h1, h2, h4, h5, h7, h8, h9, h10]

/-! ### Basic facts about `hasDate` -/

theorem hasDate_iff {cs : List Char} :
    hasDate cs = true ↔ ∃ i, dateAt (cs.drop i) = true := by
  induction cs with
  | nil => simp [hasDate, dateAt]
  | cons c rest ih =>
    constructor
    · intro hcs
      rcases Bool.or_eq_true_iff.mp hcs with hd | htail
      · exact ⟨0, hd⟩
      · obtain ⟨i, hi⟩ := ih.mp htail
        exact ⟨i + 1, by simpa using hi⟩
    · rintro ⟨i, hi⟩
      cases i with
      | zero => simp only [List.drop_zero] at hi; simp [hasDate, hi]
      | succ i =>
        have : hasDate rest = true := ih.mpr ⟨i, by simpa using hi⟩
        simp [hasDate, this]

theorem hasDate_append_left {xs : List Char} (ys : List Char) (hx : hasDate xs = true) :
    hasDate (xs ++ ys) = true := by
  obtain ⟨i, hi⟩ := hasDate_iff.mp hx
  have hle : i ≤ xs.length := by
    have := dateAt_length hi
    simp only [List.length_drop] at this
    omega
  refine hasDate_iff.mpr ⟨i, ?_⟩
  rw [List.drop_append_of_le_length hle]
  exact dateAt_append ys hi

theorem hasDate_append_right (xs : List Char) {ys : List Char} (hy : hasDate ys = true) :
    hasDate (xs ++ ys) = true := by
  obtain ⟨i, hi⟩ := hasDate_iff.mp hy
  refine hasDate_iff.mpr ⟨xs.length + i, ?_⟩
  rwa [List.drop_append_eq_append_drop, List.drop_of_length_le (by omega),
    List.nil_append, Nat.add_comm, Nat.add_sub_cancel]

/-! ### Whitespace and trimming -/

theorem ws_not_digit {c : Char} (hw : c.isWhitespace = true) : c.isDigit = false := by
  simp only [Char.isWhitespace, Bool.or_eq_true, decide_eq_true_eq] at hw
  rcases hw with ((h | h) | h) | h <;> subst h <;> decide

theorem digit_not_ws {c : Char} (hd : c.isDigit = true) : c.isWhitespace = false := by
  cases hw : c.isWhitespace
  · rfl
  · rw [ws_not_digit hw] at hd; exact absurd hd (by simp)

theorem dateAt_false_head {c : Char} {rest : List Char} (hc : c.isDigit = false) :
    dateAt (c :: rest) = false := by
  cases hda : dateAt (c :: rest)
  · rfl
  · obtain ⟨a, b, c', d, e, f, g, h, i, j, t, heq, h1, -⟩ := dateAt_shape hda
    rw [List.cons.injEq] at heq
    rw [heq.1] at hc
    rw [h1] at hc
    exact absurd hc (by simp)

theorem hasDate_dropWhile_ws (cs : List Char) :
    hasDate (cs.dropWhile Char.isWhitespace) = hasDate cs := by
  induction cs with
  | nil => rfl
  | cons c rest ih =>
    by_cases hw : c.isWhitespace = true
    · rw [List.dropWhile_cons_of_pos (by simpa using hw)]
      rw [ih]
      show hasDate rest = hasDate (c :: rest)
      simp [hasDate, dateAt_false_head (ws_not_digit hw)]
    · rw [List.dropWhile_cons_of_neg (by simpa using hw)]

theorem trimRight_sub (l : List Char) : ∃ t, trimRight l ++ t = l := by
  induction l with
  | nil => exact ⟨[], rfl⟩
  | cons c rest ih =>
    obtain ⟨t, ht⟩ := ih
    by_cases h : trimRight rest = [] ∧ c.isWhitespace
    · exact ⟨c :: rest, by simp [trimRight, h]⟩
    · exact ⟨t, by simp [trimRight, h, ht]⟩

theorem trimRight_cons_nonws {c : Char} (rest : List Char) (hc : c.isWhitespace = false) :
    trimRight (c :: rest) = c :: trimRight rest := by
  simp [trimRight, hc]

theorem hasDate_trimRight_of {m : List Char} (hm : hasDate m = true) :
    hasDate (trimRight m) = true := by
  induction m with
  | nil => exact absurd hm (by simp [hasDate])
  | cons c rest ih =>
    rcases Bool.or_eq_true_iff.mp hm with hd | htail
    · obtain ⟨a, b, c', d, e, f, g, h, i, j, t, heq, h1, h2, h3, h4, h5, h6, h7, h8, h9, h10⟩ :=
        dateAt_shape hd
      rw [heq]
      rw [trimRight_cons_nonws _ (digit_not_ws h1), trimRight_cons_nonws _ (digit_not_ws h2),
        trimRight_cons_nonws _ (by rw [h3]; decide), trimRight_cons_nonws _ (digit_not_ws h4),
        trimRight_cons_nonws _ (digit_not_ws h5), trimRight_cons_nonws _ (by rw [h6]; decide),
        trimRight_cons_nonws _ (digit_not_ws h7), trimRight_cons_nonws _ (digit_not_ws h8),
        trimRight_cons_nonws _ (digit_not_ws h9), trimRight_cons_nonws _ (digit_not_ws h10)]
      subst h3; subst h6
      show (dateAt _ || _) = true
      simp [dateAt_cons, h1, h2, h4, h5, h7, h8, h9, h10]
    · have h' := ih htail
      have hne : trimRight rest ≠ [] := by
        intro he; rw [he] at h'; exact absurd h' (by simp [hasDate])
      have : trimRight (c :: rest) = c :: trimRight rest := by
        simp [trimRight, hne]
      rw [this]
      show (dateAt _ || hasDate (trimRight rest)) = true
      simp [h']

theorem hasDate_trim_of {cs : List Char} (hcs : hasDate cs = true) :
    hasDate (trim cs) = true := by
  unfold trim
  exact hasDate_trimRight_of (by rwa [hasDate_dropWhile_ws])

theorem hasDate_of_trim {cs : List Char} (h : hasDate (trim cs) = true) :
    hasDate cs = true := by
  unfold trim at h
  obtain ⟨t, ht⟩ := trimRight_sub (cs.dropWhile Char.isWhitespace)
  have h2 : hasDate (cs.dropWhile Char.isWhitespace) = true := by
    rw [← ht]; exact hasDate_append_left t h
  rwa [hasDate_dropWhile_ws] at h2

theorem hasDate_of_takeWhile {p : Char → Bool} {cs : List Char}
    (h : hasDate (cs.takeWhile p) = true) : hasDate cs = true := by
  have := hasDate_append_left (cs.dropWhile p) h
  rwa [List.takeWhile_append_dropWhile] at this

/-! ### Facts about the date-marker scan -/

theorem dateScan_mem (cs : List Char) (p : Nat) :
    ∀ s ∈ dateScan cs p, p ≤ s ∧ dateAt (cs.drop (s - p)) = true ∧ s - p + 10 ≤ cs.length := by
  induction cs, p using dateScan_rec with
  | hnil p => intro s hs; rw [dateScan_nil] at hs; exact absurd hs (by simp)
  | hmatch c rest pos hda ih =>
    intro s hs
    rw [dateScan_cons, if_pos hda] at hs
    rcases List.mem_cons.mp hs with rfl | hs
    · exact ⟨le_refl _, by simpa using hda, by simpa using dateAt_length hda⟩
    · obtain ⟨h1, h2, h3⟩ := ih s hs
      have hlen := dateAt_length hda
      refine ⟨by omega, ?_, ?_⟩
      · rw [List.drop_drop] at h2
        have : 10 + (s - (pos + 10)) = s - pos := by omega
        rwa [this] at h2
      · simp only [List.length_drop] at h3
        simp only [List.length_cons] at *
        omega
  | hskip c rest pos hda ih =>
    intro s hs
    rw [dateScan_cons, if_neg (by simp [hda])] at hs
    obtain ⟨h1, h2, h3⟩ := ih s hs
    refine ⟨by omega, ?_, ?_⟩
    · have : s - pos = (s - (pos + 1)) + 1 := by omega
      rw [this, List.drop_succ_cons]
      exact h2
    · simp only [List.length_cons]
      omega

theorem dateScan_chain (cs : List Char) (p : Nat) :
    List.Chain' (fun a b => a + 10 ≤ b) (dateScan cs p) := by
  induction cs, p using dateScan_rec with
  | hnil p => rw [dateScan_nil]; simp
  | hmatch c rest pos hda ih =>
    rw [dateScan_cons, if_pos hda]
    refine List.chain'_cons'.mpr ⟨?_, ih⟩
    intro b hb
    have hmem : b ∈ dateScan ((c :: rest).drop 10) (pos + 10) := List.mem_of_mem_head? hb
    exact (dateScan_mem _ _ b hmem).1
  | hskip c rest pos hda ih =>
    rw [dateScan_cons, if_neg (by simp [hda])]
    exact ih

theorem dateScan_nil_min {cs : List Char} {p : Nat} (h : dateScan cs p = []) :
    ∀ i, dateAt (cs.drop i) = false := by
  induction cs, p using dateScan_rec with
  | hnil p => intro i; simp [dateAt]
  | hmatch c rest pos hda ih =>
    rw [dateScan_cons, if_pos hda] at h
    exact absurd h (by simp)
  | hskip c rest pos hda ih =>
    rw [dateScan_cons, if_neg (by simp [hda])] at h
    intro i
    cases i with
    | zero => simpa using hda
    | succ i => rw [List.drop_succ_cons]; exact ih h i

theorem dateScan_head_min {cs : List Char} {p s : Nat} {rest : List Nat}
    (h : dateScan cs p = s :: rest) : ∀ j, j < s - p → dateAt (cs.drop j) = false := by
  induction cs, p using dateScan_rec with
  | hnil p => rw [dateScan_nil] at h; exact absurd h (by simp)
  | hmatch c cs' pos hda ih =>
    rw [dateScan_cons, if_pos hda] at h
    have : s = pos := (List.cons.injEq _ _ _ _ ▸ h).1.symm
    intro j hj
    omega
  | hskip c cs' pos hda ih =>
    rw [dateScan_cons, if_neg (by simp [hda])] at h
    have hsp : pos + 1 ≤ s := by
      have : s ∈ dateScan cs' (pos + 1) := by rw [h]; exact List.mem_cons_self _ _
      exact (dateScan_mem _ _ s this).1
    intro j hj
    cases j with
    | zero => simpa using hda
    | succ j =>
      rw [List.drop_succ_cons]
      exact ih h j (by omega)

/-! ### Facts about the splitter -/

theorem slice_append_drop (text : List Char) {a b : Nat} (hab : a ≤ b) :
    listSlice text a b ++ text.drop b = text.drop a := by
  unfold listSlice
  have h1 : text.drop b = (text.drop a).drop (b - a) := by
    rw [List.drop_drop]
    congr 1
    omega
  rw [h1, List.take_append_drop]

theorem splitGo_join (text : List Char) :
    ∀ (starts : List Nat) (lastEnd : Nat), List.Pairwise (· < ·) starts →
      (∀ s ∈ starts, lastEnd ≤ s ∧ s < text.length) → lastEnd ≤ text.length →
      (splitGo text starts lastEnd).flatten = text.drop lastEnd := by
  intro starts
  induction starts with
  | nil =>
    intro lastEnd _ _ hle
    unfold splitGo
    by_cases h : lastEnd < text.length
    · simp [h]
    · rw [if_neg h, List.flatten_nil, Eq.comm, List.drop_eq_nil_iff]
      omega
  | cons s rest ih =>
    intro lastEnd hpw hbnd hle
    have hps := List.pairwise_cons.mp hpw
    have hs := hbnd s (List.mem_cons_self _ _)
    have hrec : (splitGo text rest s).flatten = text.drop s := by
      refine ih s hps.2 ?_ (by omega)
      intro r hr
      exact ⟨Nat.le_of_lt (hps.1 r hr), (hbnd r (List.mem_cons_of_mem _ hr)).2⟩
    show ((if lastEnd ≤ s then _ else _) ++ splitGo text rest s).flatten = _
    rw [if_pos hs.1, List.flatten_append]
    by_cases hsl : listSlice text lastEnd s = []
    · rw [if_pos hsl, List.flatten_nil, List.nil_append, hrec]
      unfold listSlice at hsl
      rcases List.take_eq_nil_iff.mp hsl with h0 | h0
      · have hse : s = lastEnd := by omega
        rw [hse]
      · rw [List.drop_eq_nil_iff] at h0
        have e1 : text.drop lastEnd = [] := List.drop_eq_nil_iff.mpr h0
        have e2 : text.drop s = [] := List.drop_eq_nil_iff.mpr (by omega)
        rw [e1, e2]
    · rw [if_neg hsl, hrec]
      show (listSlice text lastEnd s :: []).flatten ++ text.drop s = text.drop lastEnd
      rw [List.flatten_cons, List.flatten_nil, List.append_nil]
      exact slice_append_drop text hs.1

theorem splitGo_ne_nil (text : List Char) :
    ∀ (starts : List Nat) (lastEnd : Nat) (f : List Char),
      f ∈ splitGo text starts lastEnd → f ≠ [] := by
  intro starts
  induction starts with
  | nil =>
    intro lastEnd f hf
    unfold splitGo at hf
    by_cases h : lastEnd < text.length
    · rw [if_pos h] at hf
      rcases List.mem_singleton.mp hf with rfl
      rw [Ne, List.drop_eq_nil_iff]
      omega
    · rw [if_neg h] at hf
      exact absurd hf (by simp)
  | cons s rest ih =>
    intro lastEnd f hf
    unfold splitGo at hf
    rcases List.mem_append.mp hf with hf | hf
    · split at hf
      · split at hf
        · exact absurd hf (by simp)
        · next hne => rcases List.mem_singleton.mp hf with rfl; exact hne
      · exact absurd hf (by simp)
    · exact ih s f hf

theorem splitGo_mem_dateAt (text : List Char) :
    ∀ (starts : List Nat) (lastEnd : Nat),
      List.Chain' (fun a b => a + 10 ≤ b) (lastEnd :: starts) →
      dateAt (text.drop lastEnd) = true →
      (∀ s ∈ starts, dateAt (text.drop s) = true) →
      ∀ f ∈ splitGo text starts lastEnd, dateAt f = true := by
  intro starts
  induction starts with
  | nil =>
    intro lastEnd _ hle _ f hf
    unfold splitGo at hf
    split at hf
    · rcases List.mem_singleton.mp hf with rfl
      exact hle
    · exact absurd hf (by simp)
  | cons s rest ih =>
    intro lastEnd hch hle hall f hf
    have hch2 := List.chain'_cons.mp hch
    unfold splitGo at hf
    rcases List.mem_append.mp hf with hf | hf
    · split at hf
      · split at hf
        · exact absurd hf (by simp)
        · rcases List.mem_singleton.mp hf with rfl
          unfold listSlice
          exact dateAt_take_of_ge (by omega) hle
      · exact absurd hf (by simp)
    · exact ih s hch2.2 (hall s (List.mem_cons_self _ _))
        (fun r hr => hall r (List.mem_cons_of_mem _ hr)) f hf

/-- Any fragment containing no date-pattern match is rejected by the parser
(the re-validation of `src/lib.rs:57`). -/
theorem parsePart_none_of_no_date {frag : List Char} (h : hasDate frag = false) :
    parsePart frag = none := by
  have hdate : hasDate (splitOnceNl (trim frag)).1 = false := by
    unfold splitOnceNl
    split
    · cases hv : hasDate ((trim frag).takeWhile (fun c => c != '\n')) with
      | false => simp [hv]
      | true =>
        exfalso
        have := hasDate_of_trim (hasDate_of_takeWhile hv)
        rw [h] at this; exact absurd this (by simp)
    · simp [hasDate]
  unfold parsePart
  by_cases h1 : trim frag = []
  · rw [if_pos h1]
  · rw [if_neg h1, if_pos hdate]

/-! ### Facts about digit runs and the money-number pattern -/

theorem digitRun_le_length (cs : List Char) : digitRun cs ≤ cs.length := by
  induction cs with
  | nil => simp [digitRun]
  | cons c rest ih =>
    unfold digitRun
    split
    · simpa using ih
    · simp

theorem digitRun_take_digits (cs : List Char) :
    ∀ c ∈ cs.take (digitRun cs), c.isDigit = true := by
  induction cs with
  | nil => simp
  | cons c rest ih =>
    unfold digitRun
    split
    · next hc =>
      rw [List.take_succ_cons]
      intro x hx
      rcases List.mem_cons.mp hx with rfl | hx
      · exact hc
      · exact ih x hx
    · simp

theorem digitRun_drop_head {cs : List Char} {c : Char} {t : List Char}
    (h : cs.drop (digitRun cs) = c :: t) : c.isDigit = false := by
  induction cs generalizing c t with
  | nil => simp at h
  | cons c0 rest ih =>
    by_cases hc0 : c0.isDigit = true
    · rw [show digitRun (c0 :: rest) = digitRun rest + 1 by simp [digitRun, hc0],
        List.drop_succ_cons] at h
      exact ih h
    · have hc0' : c0.isDigit = false := by simpa using hc0
      rw [show digitRun (c0 :: rest) = 0 by simp [digitRun, hc0'], List.drop_zero] at h
      have := (List.cons.injEq _ _ _ _ ▸ h).1
      rw [← this]
      exact hc0'

theorem digitRun_append_digits {xs : List Char} (ys : List Char)
    (hxs : ∀ c ∈ xs, c.isDigit = true) :
    digitRun (xs ++ ys) = xs.length + digitRun ys := by
  induction xs with
  | nil => simp
  | cons c rest ih =>
    have hc : c.isDigit = true := hxs c (List.mem_cons_self _ _)
    rw [List.cons_append, show digitRun (c :: (rest ++ ys)) = digitRun (rest ++ ys) + 1 by
      simp [digitRun, hc]]
    rw [ih (fun x hx => hxs x (List.mem_cons_of_mem _ hx))]
    simp [List.length_cons]
    omega

theorem digitRun_eq_zero {ys : List Char}
    (hy : ∀ c t, ys = c :: t → c.isDigit = false) : digitRun ys = 0 := by
  cases ys with
  | nil => rfl
  | cons c t =>
    have := hy c t rfl
    simp [digitRun, this]

theorem numLen_some_iff {cs : List Char} {L : Nat} :
    numLen cs = some L ↔
      ∃ d1 d2 t, cs = d1 ++ ',' :: (d2 ++ t) ∧ d1 ≠ [] ∧ d2 ≠ [] ∧
        (∀ c ∈ d1, c.isDigit = true) ∧ (∀ c ∈ d2, c.isDigit = true) ∧
        (∀ c t', t = c :: t' → c.isDigit = false) ∧ L = d1.length + 1 + d2.length := by
  constructor
  · intro h
    unfold numLen at h
    split at h
    · exact absurd h (by simp)
    · next hr1 =>
      split at h
      · next c0 rest2 heq =>
        split at h
        · next hc0 =>
          subst hc0
          split at h
          · exact absurd h (by simp)
          · next hr2 =>
            injection h with h
            refine ⟨cs.take (digitRun cs), rest2.take (digitRun rest2),
              rest2.drop (digitRun rest2),
              ?_, ?_, ?_, digitRun_take_digits cs, digitRun_take_digits rest2, ?_, ?_⟩
            · conv_lhs => rw [← List.take_append_drop (digitRun cs) cs]
              rw [heq, List.take_append_drop]
            · rw [Ne, List.take_eq_nil_iff]
              rintro (h0 | h0)
              · exact hr1 h0
              · rw [h0] at hr1; exact hr1 rfl
            · rw [Ne, List.take_eq_nil_iff]
              rintro (h0 | h0)
              · exact hr2 h0
              · rw [h0] at hr2; exact hr2 rfl
            · intro c t' ht'
              exact digitRun_drop_head ht'
            · rw [List.length_take, List.length_take]
              have h1 := digitRun_le_length cs
              have h2 := digitRun_le_length rest2
              omega
        · exact absurd h (by simp)
      · exact absurd h (by simp)
  · rintro ⟨d1, d2, t, rfl, hd1, hd2, hdig1, hdig2, ht, rfl⟩
    have e1 : digitRun (d1 ++ ',' :: (d2 ++ t)) = d1.length := by
      rw [digitRun_append_digits _ hdig1]
      have e0 : digitRun (',' :: (d2 ++ t)) = 0 := by simp [digitRun]
      rw [e0]
      omega
    have e2 : (d1 ++ ',' :: (d2 ++ t)).drop d1.length = ',' :: (d2 ++ t) :=
      List.drop_left d1 _
    have e3 : digitRun (d2 ++ t) = d2.length := by
      rw [digitRun_append_digits _ hdig2, digitRun_eq_zero ht]
      omega
    unfold numLen
    rw [e1, if_neg (by simpa [List.length_eq_zero] using hd1)]
    rw [e2]
    show (if (',' : Char) = ',' then
        (if digitRun (d2 ++ t) = 0 then none
         else some (d1.length + 1 + digitRun (d2 ++ t)))
      else none) = some (d1.length + 1 + d2.length)
    rw [if_pos rfl, e3, if_neg (by simpa [List.length_eq_zero] using hd2)]

theorem numLen_le_length {cs : List Char} {L : Nat} (h : numLen cs = some L) : L ≤ cs.length := by
  obtain ⟨d1, d2, t, rfl, -, -, -, -, -, rfl⟩ := numLen_some_iff.mp h
  simp
  omega

theorem numLen_nil : numLen ([] : List Char) = none := rfl

theorem numScan_mem (cs : List Char) (q : Nat) :
    ∀ p l, (p, l) ∈ numScan cs q → ∃ d, p = q + d ∧ numLen (cs.drop d) = some l := by
  induction cs, q using numScan_rec with
  | hnil q => intro p l hp; rw [numScan_nil] at hp; exact absurd hp (by simp)
  | hmatch c rest pos len h ih =>
    intro p l hp
    rw [numScan_cons, h] at hp
    rcases List.mem_cons.mp hp with heq | hp
    · obtain ⟨rfl, rfl⟩ := Prod.mk.injEq _ _ _ _ ▸ heq
      exact ⟨0, by omega, by simpa using h⟩
    · obtain ⟨d', hd', hnl⟩ := ih p l hp
      refine ⟨len + d', by omega, ?_⟩
      rwa [List.drop_drop] at hnl
  | hskip c rest pos h ih =>
    intro p l hp
    rw [numScan_cons, h] at hp
    obtain ⟨d', hd', hnl⟩ := ih p l hp
    refine ⟨d' + 1, by omega, ?_⟩
    rwa [List.drop_succ_cons]

theorem numScan_head_of_numLen {cs : List Char} {L : Nat} (h : numLen cs = some L) :
    (numScan cs 0).head? = some (0, L) := by
  cases cs with
  | nil => rw [numLen_nil] at h; exact absurd h (by simp)
  | cons c rest =>
    rw [numScan_cons, h]
    rfl

theorem trimRight_append_thm (xs ys : List Char) :
    trimRight (xs ++ ys) = if trimRight ys = [] then trimRight xs else xs ++ trimRight ys := by
  induction xs with
  | nil => by_cases h : trimRight ys = [] <;> simp [h, trimRight]
  | cons c rest ih =>
    rw [List.cons_append]
    show (if trimRight (rest ++ ys) = [] ∧ c.isWhitespace then []
          else c :: trimRight (rest ++ ys)) = _
    rw [ih]
    by_cases h : trimRight ys = []
    · rw [if_pos h, if_pos h]
      rfl
    · rw [if_neg h, if_neg h]
      have hne : rest ++ trimRight ys ≠ [] := by
        simp only [Ne, List.append_eq_nil]
        rintro ⟨-, h2⟩
        exact h h2
      rw [if_neg (by rintro ⟨h1, -⟩; exact hne h1)]
      simp

theorem trimRight_getLast_nonws :
    ∀ {cs : List Char}, (∀ c, cs.getLast? = some c → c.isWhitespace = false) →
      trimRight cs = cs := by
  intro cs
  induction cs with
  | nil => intro; rfl
  | cons c rest ih =>
    intro hl
    cases rest with
    | nil =>
      have hc := hl c rfl
      show (if trimRight [] = [] ∧ c.isWhitespace then [] else c :: trimRight []) = [c]
      rw [if_neg (by rintro ⟨-, h2⟩; rw [hc] at h2; exact absurd h2 (by simp))]
      rfl
    | cons d rest' =>
      have hrec : trimRight (d :: rest') = d :: rest' := by
        apply ih
        intro x hx
        exact hl x (by rwa [List.getLast?_cons_cons])
      show (if trimRight (d :: rest') = [] ∧ c.isWhitespace then []
            else c :: trimRight (d :: rest')) = c :: d :: rest'
      rw [if_neg (by rw [hrec]; rintro ⟨h1, -⟩; exact absurd h1 (by simp)), hrec]

theorem numLen_trimRight {cs : List Char} {L : Nat} (h : numLen cs = some L) :
    numLen (trimRight cs) = some L ∧ (trimRight cs).take L = cs.take L := by
  obtain ⟨d1, d2, t, rfl, hd1, hd2, hdig1, hdig2, ht, rfl⟩ := numLen_some_iff.mp h
  have hshape : d1 ++ ',' :: (d2 ++ t) = (d1 ++ ',' :: d2) ++ t := by simp
  have hL : (d1 ++ ',' :: d2).length = d1.length + 1 + d2.length := by
    simp
    omega
  have hmlast : ∀ c, (d1 ++ ',' :: d2).getLast? = some c → c.isWhitespace = false := by
    intro c hc
    rw [List.getLast?_append_of_ne_nil _ (by simp : (',' :: d2) ≠ [])] at hc
    cases d2 with
    | nil => exact absurd rfl hd2
    | cons x xs =>
      rw [List.getLast?_cons_cons] at hc
      have hcm : c ∈ x :: xs := by
        have he := @List.getLast?_eq_getLast_of_ne_nil Char (x :: xs) (by simp)
        rw [he] at hc
        injection hc with hc
        rw [← hc]
        exact List.getLast_mem _
      exact digit_not_ws (hdig2 c hcm)
  rw [hshape, trimRight_append_thm]
  by_cases htt : trimRight t = []
  · rw [if_pos htt, trimRight_getLast_nonws hmlast]
    refine ⟨?_, ?_⟩
    · apply numLen_some_iff.mpr
      exact ⟨d1, d2, [], by simp, hd1, hd2, hdig1, hdig2, by simp, rfl⟩
    · rw [List.take_left' hL, ← hL, List.take_length]
  · rw [if_neg htt]
    refine ⟨?_, ?_⟩
    · apply numLen_some_iff.mpr
      refine ⟨d1, d2, trimRight t, by simp, hd1, hd2, hdig1, hdig2, ?_, rfl⟩
      intro c t' htr
      obtain ⟨u, hu⟩ := trimRight_sub t
      rw [htr] at hu
      exact ht c (t' ++ u) (by rw [← hu]; simp)
    · rw [List.take_left' hL, List.take_left' hL]

theorem last_match_refound {part : List Char} {pos len : Nat}
    (h : (numScan part 0).getLast? = some (pos, len)) :
    (numScan (trim (part.drop pos)) 0).head? = some (0, len) ∧
      (trim (part.drop pos)).take len = (part.drop pos).take len := by
  have hmem : (pos, len) ∈ numScan part 0 := by
    obtain ⟨hne, heq⟩ := List.mem_getLast?_eq_getLast h
    rw [heq]
    exact List.getLast_mem _
  obtain ⟨d, hd, hnl⟩ := numScan_mem part 0 pos len hmem
  have hd' : d = pos := by omega
  rw [hd'] at hnl
  obtain ⟨d1, d2, t, heq, hd1, -, hdig1, -, -, -⟩ := numLen_some_iff.mp hnl
  have htrim : trim (part.drop pos) = trimRight (part.drop pos) := by
    unfold trim
    congr 1
    cases d1 with
    | nil => exact absurd rfl hd1
    | cons x xs =>
      rw [heq, List.cons_append, List.dropWhile_cons_of_neg]
      simp [digit_not_ws (hdig1 x (List.mem_cons_self _ _))]
  obtain ⟨hnum2, htake⟩ := numLen_trimRight hnl
  refine ⟨?_, ?_⟩
  · rw [htrim]
    exact numScan_head_of_numLen hnum2
  · rw [htrim]
    exact htake

/-! ### Characterisation of a successful parse -/

theorem parsePart_some_shape {frag : List Char} {t : Transaction}
    (h : parsePart frag = some t) :
    hasDate (splitOnceNl (trim frag)).1 = true ∧
      t.date = trim (splitOnceNl (trim frag)).1 ∧
      t.description = trim (replaceNl (descAndAmountStr (restOf frag)).1) ∧
      t.amount = amountOf (descAndAmountStr (restOf frag)).2 := by
  unfold restOf
  simp only [parsePart] at h
  by_cases h1 : trim frag = []
  · rw [if_pos h1] at h; exact absurd h (by simp)
  · rw [if_neg h1] at h
    by_cases h2 : hasDate (splitOnceNl (trim frag)).1 = false
    · rw [if_pos h2] at h; exact absurd h (by simp)
    · rw [if_neg h2] at h
      split at h
      · exact absurd h (by simp)
      · injection h with h
        subst h
        refine ⟨?_, rfl, rfl, rfl⟩
        cases hb : hasDate (splitOnceNl (trim frag)).1
        · exact absurd hb h2
        · rfl


/-! ### Concrete example inputs -/

/-- The page text of the end-to-end example in the spec (and of
`test_get_transactions`, first fragment). -/
def exText : List Char :=
  "some prefix26.01.2021\nIKEA BORLANGE - SEK 111,00 (KURS 11,1111)\nBORLANGE\n18,30".data

/-- The record the example page text extracts to (`18.30 = 1830/100`). -/
def exTransaction : Transaction :=
  ⟨"26.01.2021".data, "IKEA BORLANGE - SEK 111,00 (KURS 11,1111), BORLANGE".data,
   Rat.divInt 1830 100⟩

/-- The example fragment (the example page text without its prefix). -/
def exFrag : List Char :=
  "26.01.2021\nIKEA BORLANGE - SEK 111,00 (KURS 11,1111)\nBORLANGE\n18,30".data

/-- A one-document batch holding the example page. -/
def exDocs : List (Option Doc) := [some [some exText]]

/-! ### Claim theorems -/

/-- C1: for the same input documents, converting with `swap_sign = true` yields
exactly the same sequence of transactions as converting with
`swap_sign = false`, except that every transaction's amount is negated; every
date and description is unchanged. -/
theorem swap_sign_negates_amounts (docs : List (Option Doc)) (ts1 ts0 : List Transaction)
    (h1 : convertTransactions docs true = some ts1)
    (h0 : convertTransactions docs false = some ts0) :
    ts1.map Transaction.date = ts0.map Transaction.date ∧
      ts1.map Transaction.description = ts0.map Transaction.description ∧
      ts1.map Transaction.amount = ts0.map (fun t => -t.amount) := by
  unfold convertTransactions at h1 h0
  cases hb : batchTransactions docs with
  | none => rw [hb] at h1; exact absurd h1 (by simp)
  | some ts =>
    rw [hb] at h1 h0
    simp only [Option.map_some'] at h1 h0
    injection h1 with h1
    injection h0 with h0
    rw [← h1, ← h0]
    unfold applySwapSign
    rw [if_pos rfl, if_neg (by simp)]
    refine ⟨?_, ?_, ?_⟩ <;> rw [List.map_map] <;> rfl

set_option maxRecDepth 10000 in
/-- Witness for C1 at a concrete one-document batch. -/
theorem swap_sign_negates_amounts_witness :
    [Transaction.mk exTransaction.date exTransaction.description
        (Rat.divInt (-1830) 100)].map Transaction.date =
      [exTransaction].map Transaction.date ∧
    [Transaction.mk exTransaction.date exTransaction.description
        (Rat.divInt (-1830) 100)].map Transaction.description =
      [exTransaction].map Transaction.description ∧
    [Transaction.mk exTransaction.date exTransaction.description
        (Rat.divInt (-1830) 100)].map Transaction.amount =
      [exTransaction].map (fun t => -t.amount) :=
  swap_sign_negates_amounts exDocs _ _ (by decide) (by decide)

/-- C2 counterexample: on a page whose first "NEUER SALDO" precedes its first
"ALTER SALDO", the slice `&text[start..end]` has `start > end` and panics
(modelled as `none`) instead of returning a window. -/
theorem pageWindow_reversed_markers_panics :
    pageWindow "NEUER SALDO ALTER SALDO".data = none := by decide

/-- C2 (amended): the page windower returns the substring from the first
occurrence of "ALTER SALDO" (position 0 when absent) to the first occurrence
of "NEUER SALDO" (end of text when absent) whenever the computed start does
not exceed the computed end — in particular, when both markers are absent the
whole page is the window; but when the first "NEUER SALDO" strictly precedes
the first "ALTER SALDO" the slice panics instead of returning a window. -/
theorem pageWindow_total_when_markers_ordered (text : List Char) :
    (windowStart text ≤ windowEnd text →
      pageWindow text = some (listSlice text (windowStart text) (windowEnd text))) ∧
    (findSub STARTING_TEXT text = none → findSub ENDING_TEXT text = none →
      pageWindow text = some text) := by
  constructor
  · intro h
    unfold pageWindow
    rw [if_pos h]
  · intro hs he
    have h1 : windowStart text = 0 := by unfold windowStart; rw [hs]; rfl
    have h2 : windowEnd text = text.length := by unfold windowEnd; rw [he]; rfl
    unfold pageWindow
    rw [h1, h2, if_pos (Nat.zero_le _)]
    unfold listSlice
    rw [List.drop_zero, Nat.sub_zero, List.take_length]

/-- Witness for the amended C2 theorem at a concrete marker-free page. -/
theorem pageWindow_total_when_markers_ordered_witness :
    pageWindow "hello".data =
      some (listSlice "hello".data (windowStart "hello".data) (windowEnd "hello".data)) ∧
    pageWindow "hello".data = some "hello".data :=
  ⟨(pageWindow_total_when_markers_ordered "hello".data).1 (by decide),
   (pageWindow_total_when_markers_ordered "hello".data).2 (by decide) (by decide)⟩

/-- C3 counterexample: a window with no date-marker match yields one fragment
(the whole window), not zero fragments, and that fragment does not begin at a
date-marker match. -/
theorem splitter_returns_unmatched_window :
    split_by_date "hello".data = ["hello".data] ∧ hasDate "hello".data = false := by
  decide

/-- C3 (amended): the splitter does not discard the text before the first
date-marker match — it returns it as an initial fragment (and returns the
whole window when nothing matches); however every fragment either begins with
a date-marker match or contains no date-marker match at all, and the parser
rejects every fragment containing no date-marker match, so text before the
first marker still never yields a transaction. -/
theorem prefix_fragment_rejected (text : List Char) :
    (∀ f ∈ split_by_date text, dateAt f = true ∨ hasDate f = false) ∧
    (∀ f : List Char, hasDate f = false → parsePart f = none) := by
  constructor
  · intro f hf
    unfold split_by_date at hf
    cases hscan : dateScan text 0 with
    | nil =>
      rw [hscan] at hf
      unfold splitGo at hf
      split at hf
      · have hfe : f = text.drop 0 := List.mem_singleton.mp hf
        rw [List.drop_zero] at hfe
        subst hfe
        right
        cases hhd : hasDate f
        · rfl
        · exfalso
          obtain ⟨i, hi⟩ := hasDate_iff.mp hhd
          rw [dateScan_nil_min hscan i] at hi
          exact absurd hi (by simp)
      · exact absurd hf (by simp)
    | cons s0 rest =>
      rw [hscan] at hf
      unfold splitGo at hf
      rcases List.mem_append.mp hf with hf | hf
      · split at hf
        · split at hf
          · exact absurd hf (by simp)
          · have hfe : f = listSlice text 0 s0 := List.mem_singleton.mp hf
            subst hfe
            right
            cases hhd : hasDate (listSlice text 0 s0)
            · rfl
            · exfalso
              obtain ⟨i, hi⟩ := hasDate_iff.mp hhd
              simp only [listSlice, List.drop_zero, Nat.sub_zero] at hi
              rw [List.drop_take] at hi
              have h10 := dateAt_length hi
              have hda : dateAt (text.drop i) = true := dateAt_of_take hi
              have hlt : i < s0 := by
                simp only [List.length_take, List.length_drop] at h10
                omega
              have hmin := dateScan_head_min hscan i (by omega)
              rw [hmin] at hda
              exact absurd hda (by simp)
        · next hc => exact absurd (Nat.zero_le s0) hc
      · left
        refine splitGo_mem_dateAt text rest s0 ?_ ?_ ?_ f hf
        · have hch := dateScan_chain text 0
          rwa [hscan] at hch
        · have hm := dateScan_mem text 0 s0 (by rw [hscan]; exact List.mem_cons_self _ _)
          simpa using hm.2.1
        · intro s hs
          have hm := dateScan_mem text 0 s (by rw [hscan]; exact List.mem_cons_of_mem _ hs)
          simpa using hm.2.1
  · intro f hf
    exact parsePart_none_of_no_date hf

/-- Witness for the amended C3 theorem at concrete inputs. -/
theorem prefix_fragment_rejected_witness :
    (dateAt "hello".data = true ∨ hasDate "hello".data = false) ∧
      parsePart "xx".data = none :=
  ⟨(prefix_fragment_rejected "hello".data).1 "hello".data (by decide),
   (prefix_fragment_rejected "hello".data).2 "xx".data (by decide)⟩

set_option maxRecDepth 10000 in
/-- C4 counterexample: a fragment whose date line carries text after the
matched marker yields a transaction whose date field is the whole first line
("01.01.2020 X"), not the bare `\d{2}\.\d{2}\.\d{4}` match. -/
theorem date_field_exceeds_marker :
    get_transactions "01.01.2020 X\nfoo 1,23".data =
      [⟨"01.01.2020 X".data, "foo".data, 123 / 100⟩] ∧
      "01.01.2020 X".data ≠ "01.01.2020".data := by
  rw [show (123 / 100 : ℚ) = Rat.divInt 123 100 by rw [Rat.divInt_eq_div]; norm_num]
  decide

/-- C4 (amended): every emitted transaction's date field is the trimmed first
line of its fragment; it always contains a `\d{2}\.\d{2}\.\d{4}` match, but
it may contain additional text around the matched marker, so it need not
equal the bare matched substring. -/
theorem emitted_date_contains_marker (text : List Char) (t : Transaction)
    (ht : t ∈ get_transactions text) : hasDate t.date = true := by
  obtain ⟨f, hf, hp⟩ := List.mem_filterMap.mp ht
  obtain ⟨hguard, hdate, -, -⟩ := parsePart_some_shape hp
  rw [hdate]
  exact hasDate_trim_of hguard

set_option maxRecDepth 10000 in
/-- Witness for the amended C4 theorem at a concrete input. -/
theorem emitted_date_contains_marker_witness :
    hasDate (Transaction.mk "01.01.2020 X".data "foo".data (Rat.divInt 123 100)).date = true :=
  emitted_date_contains_marker "01.01.2020 X\nfoo 1,23".data _ (by decide)

/-- C5: whenever a fragment's rest holds two or more money-number matches,
the parser takes the last match as the amount and everything before that
match's start (trimmed, newlines collapsed to ", ", trimmed again) as the
description. -/
theorem parser_takes_last_money_match (frag : List Char) (t : Transaction) (pos len : Nat)
    (hp : parsePart frag = some t)
    (hlast : (numScan (restOf frag) 0).getLast? = some (pos, len))
    (_htwo : 2 ≤ (numScan (restOf frag) 0).length) :
    t.amount = matchValue (listSlice (restOf frag) pos (pos + len)) ∧
      t.description = trim (replaceNl (trim ((restOf frag).take pos))) := by
  obtain ⟨-, -, hdesc, hamt⟩ := parsePart_some_shape hp
  have hda : descAndAmountStr (restOf frag) =
      (trim ((restOf frag).take pos), trim ((restOf frag).drop pos)) := by
    unfold descAndAmountStr
    rw [hlast]
  constructor
  · rw [hamt, hda]
    show amountOf (trim ((restOf frag).drop pos)) = _
    obtain ⟨hhead, htake⟩ := last_match_refound hlast
    unfold amountOf
    rw [hhead]
    show matchValue (listSlice (trim ((restOf frag).drop pos)) 0 (0 + len)) = _
    unfold listSlice
    rw [List.drop_zero, Nat.zero_add, Nat.sub_zero, Nat.add_sub_cancel_left, htake]
  · rw [hdesc, hda]

set_option maxRecDepth 10000 in
/-- Witness for C5 at the example fragment (its rest holds three
money-numbers; the last one, "18,30" at offset 51, is the amount). -/
theorem parser_takes_last_money_match_witness :
    exTransaction.amount = matchValue (listSlice (restOf exFrag) 51 (51 + 5)) ∧
      exTransaction.description = trim (replaceNl (trim ((restOf exFrag).take 51))) :=
  parser_takes_last_money_match exFrag exTransaction 51 5 (by decide) (by decide) (by decide)

/-- C6: a fragment with no newline after the date line, or with no
money-number match in its rest, or whose extracted amount parses to exactly
zero, yields no transaction, and a rejected fragment leaves the processing of
its sibling fragments unchanged. -/
theorem unparsable_fragment_dropped (frag : List Char) :
    ((trim frag).contains '\n' = false → parsePart frag = none) ∧
    (numScan (restOf frag) 0 = [] → parsePart frag = none) ∧
    (amountOf (descAndAmountStr (restOf frag)).2 = 0 → parsePart frag = none) ∧
    (∀ pre post : List (List Char), parsePart frag = none →
      (pre ++ frag :: post).filterMap parsePart = (pre ++ post).filterMap parsePart) := by
  refine ⟨?_, ?_, ?_, ?_⟩
  · intro hnl
    have hsp : splitOnceNl (trim frag) = ([], []) := by
      unfold splitOnceNl
      have hc : ¬((trim frag).contains '\n' = true) := by rw [hnl]; simp
      rw [if_neg hc]
    unfold parsePart
    by_cases h1 : trim frag = []
    · rw [if_pos h1]
    · rw [if_neg h1, hsp]
      show (if hasDate ([] : List Char) = false then none else _) = none
      exact if_pos rfl
  · intro hscan
    have hda : descAndAmountStr (restOf frag) = ([], []) := by
      unfold descAndAmountStr
      rw [hscan]
      rfl
    unfold restOf at hda
    unfold parsePart
    by_cases h1 : trim frag = []
    · rw [if_pos h1]
    · rw [if_neg h1]
      by_cases h2 : hasDate (splitOnceNl (trim frag)).1 = false
      · rw [if_pos h2]
      · rw [if_neg h2, hda]
        exact if_pos (Or.inr (Or.inl rfl))
  · intro hamt
    unfold restOf at hamt
    unfold parsePart
    by_cases h1 : trim frag = []
    · rw [if_pos h1]
    · rw [if_neg h1]
      by_cases h2 : hasDate (splitOnceNl (trim frag)).1 = false
      · rw [if_pos h2]
      · rw [if_neg h2]
        exact if_pos (Or.inr (Or.inr hamt))
  · intro pre post hnone
    rw [List.filterMap_append, List.filterMap_append, List.filterMap_cons_none hnone]

/-- Witness for C6 at a fragment meeting all three rejection conditions. -/
theorem unparsable_fragment_dropped_witness :
    parsePart "01.01.2020".data = none ∧ parsePart "01.01.2020".data = none ∧
      parsePart "01.01.2020".data = none ∧
      (["x".data] ++ "01.01.2020".data :: []).filterMap parsePart =
        (["x".data] ++ []).filterMap parsePart :=
  ⟨(unparsable_fragment_dropped _).1 (by decide),
   (unparsable_fragment_dropped _).2.1 (by decide),
   (unparsable_fragment_dropped _).2.2.1 (by decide),
   (unparsable_fragment_dropped _).2.2.2 ["x".data] []
     ((unparsable_fragment_dropped _).1 (by decide))⟩

set_option maxRecDepth 10000 in
/-- C7: for the example page text, extraction yields exactly one record with
date "26.01.2021", description
"IKEA BORLANGE - SEK 111,00 (KURS 11,1111), BORLANGE", and amount 18.30. -/
theorem ikea_example_extraction :
    pageTransactions exText =
      some [⟨"26.01.2021".data,
        "IKEA BORLANGE - SEK 111,00 (KURS 11,1111), BORLANGE".data, 183 / 10⟩] := by
  rw [show (183 / 10 : ℚ) = Rat.divInt 1830 100 by rw [Rat.divInt_eq_div]; norm_num]
  decide

/-- C8: when the transactions aggregated across all documents form an empty
list, the conversion returns an error whose message contains
"No transactions found" and the input path; when they are non-empty and
output writing succeeds, it returns success. -/
theorem no_transactions_error (input : List Char) (docs : List (Option Doc))
    (writeOk : Bool) (ts : List Transaction) (hb : batchTransactions docs = some ts) :
    (ts = [] →
      advanzia2csv input docs writeOk = some (Except.error (noTransMsg input)) ∧
      (∃ l r, noTransMsg input = l ++ "No transactions found".data ++ r) ∧
      (∃ l r, noTransMsg input = l ++ input ++ r)) ∧
    (ts ≠ [] → writeOk = true → advanzia2csv input docs writeOk = some (Except.ok ts)) := by
  constructor
  · rintro rfl
    refine ⟨?_, ?_, ?_⟩
    · unfold advanzia2csv
      rw [hb]
      rfl
    · refine ⟨[], " in ".data ++ input, ?_⟩
      unfold noTransMsg
      rw [List.nil_append, ← List.append_assoc]
      congr 1
    · refine ⟨"No transactions found in ".data, [], ?_⟩
      unfold noTransMsg
      rw [List.append_nil]
  · intro hne hw
    subst hw
    unfold advanzia2csv
    rw [hb]
    show (if ts = [] then some (Except.error (noTransMsg input))
          else if (true : Bool) = true then some (Except.ok ts)
          else some (Except.error "output write failure".data)) = some (Except.ok ts)
    rw [if_neg hne, if_pos rfl]

set_option maxRecDepth 10000 in
/-- Witness for C8: an empty batch errors with the message, and the
one-example batch with a working writer succeeds. -/
theorem no_transactions_error_witness :
    advanzia2csv "input.pdf".data [] true =
      some (Except.error (noTransMsg "input.pdf".data)) ∧
    advanzia2csv "input.pdf".data exDocs true = some (Except.ok [exTransaction]) :=
  ⟨((no_transactions_error "input.pdf".data [] true [] rfl).1 rfl).1,
   (no_transactions_error "input.pdf".data exDocs true [exTransaction]
     (by decide)).2 (by decide) rfl⟩

theorem docTransactions_cons_some (text : List Char) (rest : Doc) :
    docTransactions (some text :: rest) =
      match pageTransactions text, docTransactions rest with
      | some ts, some acc => some (ts ++ acc)
      | _, _ => none := rfl

theorem batchTransactions_cons_some (doc : Doc) (rest : List (Option Doc)) :
    batchTransactions (some doc :: rest) =
      match docTransactions doc, batchTransactions rest with
      | some ts, some acc => some (ts ++ acc)
      | _, _ => none := rfl

/-- C9: a page whose text extraction failed is skipped and contributes
nothing, leaving every other page's transactions unchanged, and a document
whose load failed is skipped and contributes nothing, leaving every other
document's transactions unchanged; neither failure aborts the operation. -/
theorem failures_recovered_locally :
    (∀ pre post : Doc, docTransactions (pre ++ none :: post) = docTransactions (pre ++ post)) ∧
    (∀ pre post : List (Option Doc),
      batchTransactions (pre ++ none :: post) = batchTransactions (pre ++ post)) := by
  constructor
  · intro pre post
    induction pre with
    | nil => rfl
    | cons p rest ih =>
      cases p with
      | none =>
        show docTransactions (rest ++ none :: post) = docTransactions (rest ++ post)
        exact ih
      | some text =>
        simp only [List.cons_append]
        rw [docTransactions_cons_some, docTransactions_cons_some, ih]
  · intro pre post
    induction pre with
    | nil => rfl
    | cons p rest ih =>
      cases p with
      | none =>
        show batchTransactions (rest ++ none :: post) = batchTransactions (rest ++ post)
        exact ih
      | some doc =>
        simp only [List.cons_append]
        rw [batchTransactions_cons_some, batchTransactions_cons_some, ih]

/-- C10: concatenating, in order, the fragments the regex splitter returns
rebuilds exactly the original text, and no returned fragment is empty. -/
theorem fragments_exact_cover (text : List Char) (_hne : text ≠ []) :
    (split_by_date text).flatten = text ∧ ∀ f ∈ split_by_date text, f ≠ [] := by
  constructor
  · unfold split_by_date
    have hpair : List.Pairwise (· < ·) (dateScan text 0) := by
      have hch := dateScan_chain text 0
      have hch2 : List.Chain' (· < ·) (dateScan text 0) := by
        refine List.Chain'.imp ?_ hch
        intro a b hab
        omega
      exact List.chain'_iff_pairwise.mp hch2
    have hj := splitGo_join text (dateScan text 0) 0 hpair ?_ (Nat.zero_le _)
    · rw [hj, List.drop_zero]
    · intro s hs
      have hm := dateScan_mem text 0 s hs
      refine ⟨Nat.zero_le _, ?_⟩
      have h3 := hm.2.2
      simp only [Nat.sub_zero] at h3
      omega
  · intro f hf
    exact splitGo_ne_nil text _ _ f hf

/-- Witness for C10 at a concrete input. -/
theorem fragments_exact_cover_witness :
    (split_by_date exFrag).flatten = exFrag ∧ ∀ f ∈ split_by_date exFrag, f ≠ [] :=
  fragments_exact_cover exFrag (by decide)
